import Mathlib

/-!
Verification of the marker-navigation core of the `go-to-next-error` VSCode
extension (`src/extension.ts`), shallowly embedded in Lean.

Positions, ranges, diagnostics, the location comparator, the glob pattern
matcher, the severity/source filter and the navigation session logic are
translated directly from the TypeScript source.  The editor surface (hover
display, scrolling, command execution) is an external collaborator and is not
modelled; the decision logic that chooses the target marker and updates the
session state is modelled in full.
-/

/-- A position, as `vscode.Position`: a (line, character) pair. -/
structure Pos where
  line : Nat
  character : Nat
deriving DecidableEq, Repr

/-- `vscode.Position.isBefore`: strict lexicographic order on (line, character). -/
def Pos.isBefore (a b : Pos) : Bool :=
  a.line < b.line || (a.line == b.line && a.character < b.character)

/-- `vscode.Position.isEqual`. -/
def Pos.isEqual (a b : Pos) : Bool :=
  a.line == b.line && a.character == b.character

/-- A range, as `vscode.Range`: start and stop positions.  Only `start` is
consulted by the navigation logic. -/
structure Range where
  start : Pos
  stop : Pos
deriving DecidableEq, Repr

/-- `vscode.DiagnosticSeverity`. -/
inductive Severity where
  | error
  | warning
  | information
  | hint
deriving DecidableEq, Repr

/-- `DiagnosticLoc` from the source: a range plus an optional uri
(`undefined` for in-file cursors and plain diagnostics). -/
structure DiagnosticLoc where
  range : Range
  uri : Option String := none
deriving DecidableEq, Repr

/-- A diagnostic marker: a location plus severity and optional source string.
Covers both `vscode.Diagnostic` (uri absent) and `DiagnosticWithUri`. -/
structure Diagnostic extends DiagnosticLoc where
  severity : Severity := .error
  source : Option String := none
deriving DecidableEq, Repr

/-- The position comparison ternary of `compareDiagnosticLoc`:
`start.isBefore ? -1 : start.isEqual ? 0 : 1`. -/
def comparePos (p q : Pos) : Int :=
  if p.isBefore q then -1 else if p.isEqual q then 0 else 1

/-- Lexicographic character-code comparison of char lists, the JavaScript
`<` on strings. -/
def charListLt : List Char → List Char → Bool
  | [], [] => false
  | [], _ :: _ => true
  | _ :: _, [] => false
  | a :: as, b :: bs =>
    decide (a.toNat < b.toNat) || (a.toNat == b.toNat && charListLt as bs)

/-- JavaScript string comparison `uria < urib`: lexicographic by character
code. -/
def strLt (a b : String) : Bool :=
  charListLt a.data b.data

/-- `compareDiagnosticLoc` from the source: if either uri is undefined or the
uris are equal, compare start positions; otherwise compare the uri strings. -/
def compareDiagnosticLoc (a b : DiagnosticLoc) : Int :=
  match a.uri, b.uri with
  | some ua, some ub =>
    if ua = ub then comparePos a.range.start b.range.start
    else if strLt ua ub then -1 else 1
  | _, _ => comparePos a.range.start b.range.start

/-- `getCloserPrev` from the source.  With a null accumulator the candidate is
accepted only when `compareDiagnosticLoc(marker, cursor) < 0` (strict). -/
def getCloserPrev (cursor : DiagnosticLoc) (marker : Diagnostic)
    (soFarClosest : Option Diagnostic) : Option Diagnostic :=
  match soFarClosest with
  | none =>
    if compareDiagnosticLoc marker.toDiagnosticLoc cursor < 0 then some marker else none
  | some b =>
    if compareDiagnosticLoc marker.toDiagnosticLoc cursor ≤ 0 ∧
        compareDiagnosticLoc b.toDiagnosticLoc marker.toDiagnosticLoc < 0 then
      some marker
    else some b

/-- `getCloserNext` from the source.  With a null accumulator the candidate is
accepted when `compareDiagnosticLoc(marker, cursor) >= 0` (inclusive). -/
def getCloserNext (cursor : DiagnosticLoc) (marker : Diagnostic)
    (soFarClosest : Option Diagnostic) : Option Diagnostic :=
  match soFarClosest with
  | none =>
    if 0 ≤ compareDiagnosticLoc marker.toDiagnosticLoc cursor then some marker else none
  | some b =>
    if 0 ≤ compareDiagnosticLoc marker.toDiagnosticLoc cursor ∧
        0 < compareDiagnosticLoc b.toDiagnosticLoc marker.toDiagnosticLoc then
      some marker
    else some b

/-- The fold of `getCloserNext` over a candidate list starting from null, as
performed by the navigation loops. -/
def foldNext (cursor : DiagnosticLoc) (S : List Diagnostic) : Option Diagnostic :=
  S.foldl (fun acc d => getCloserNext cursor d acc) none

/-- Uri-presence uniformity for three locations: all lack a uri or all have
one.  In both call sites of the comparator this holds (in-file navigation
compares uri-less locations, cross-file navigation compares uri-carrying
ones); it is the domain on which the comparator is transitive. -/
def uriUniform3 (a b c : DiagnosticLoc) : Prop :=
  (a.uri = none ∧ b.uri = none ∧ c.uri = none) ∨
  (a.uri ≠ none ∧ b.uri ≠ none ∧ c.uri ≠ none)

/-- Uri-presence uniformity for a cursor and a candidate list. -/
def uriUniform (c : DiagnosticLoc) (S : List Diagnostic) : Prop :=
  (c.uri = none ∧ ∀ d ∈ S, d.toDiagnosticLoc.uri = none) ∨
  (c.uri ≠ none ∧ ∀ d ∈ S, d.toDiagnosticLoc.uri ≠ none)

/-! ### The glob pattern matcher (`globToRe`)

`globToRe` escapes every regex metacharacter except `*` and `|`, turns `*`
into `.*`, and wraps the result in `^...$`.  The compiled regex is used via
`candidate.match(re) !== null`.  Because `|` survives unescaped it acts as
regex alternation, and because the `^`/`$` anchors are glued to the outside,
they attach only to the first and last alternative.  A `.` in JavaScript
regex matches any character except a line terminator. -/

/-- Characters matched by an (unflagged) JavaScript regex `.`: anything but a
line terminator. -/
def isDotChar (c : Char) : Bool :=
  !(c == '\n' || c == '\r' || c == Char.ofNat 0x2028 || c == Char.ofNat 0x2029)

/-- A token of one glob alternative: a literal character or the `*` wildcard
(compiled to `.*`). -/
inductive GlobTok where
  | star
  | lit (c : Char)
deriving DecidableEq, Repr

/-- Tokenization of a single alternative: `*` is the wildcard, everything
else (escaped or not) is a literal. -/
def tokChar (c : Char) : GlobTok :=
  if c = '*' then .star else .lit c

/-- Split a pattern on `|`, the one metacharacter that survives unescaped and
cannot itself be escaped. -/
def splitBar : List Char → List (List Char)
  | [] => [[]]
  | c :: cs =>
    if c = '|' then [] :: splitBar cs
    else
      match splitBar cs with
      | [] => [[c]]
      | a :: rest => (c :: a) :: rest

/-- The suffixes of a char list reachable by letting `.*` consume zero or
more characters: the list itself, and — as long as the consumed character is
matched by `.` — each further suffix. -/
def dotSuffixes : List Char → List (List Char)
  | [] => [[]]
  | x :: xs => (x :: xs) :: (if isDotChar x then dotSuffixes xs else [])

/-- Whole-string matching of one alternative (used when both anchors apply):
`.*` consumes zero or more non-line-terminator characters. -/
def globExact : List GlobTok → List Char → Bool
  | [], s => s.isEmpty
  | .lit _ :: _, [] => false
  | .lit c :: ts, x :: xs => c == x && globExact ts xs
  | .star :: ts, s => (dotSuffixes s).any (fun s2 => globExact ts s2)

/-- Matching of the start-anchored first alternative: some prefix of the
candidate matches, the rest is left unconsumed. -/
def matchPre : List GlobTok → List Char → Bool
  | [], _ => true
  | .lit _ :: _, [] => false
  | .lit c :: ts, x :: xs => c == x && matchPre ts xs
  | .star :: ts, s => (dotSuffixes s).any (fun s2 => matchPre ts s2)

/-- Matching of the end-anchored last alternative: some suffix of the
candidate matches it exactly. -/
def matchSuf (ts : List GlobTok) : List Char → Bool
  | [] => globExact ts []
  | x :: xs => globExact ts (x :: xs) || matchSuf ts xs

/-- Matching of an unanchored middle alternative: some substring matches. -/
def matchMid (ts : List GlobTok) : List Char → Bool
  | [] => matchPre ts []
  | x :: xs => matchPre ts (x :: xs) || matchMid ts xs

/-- The tokenized alternatives of a pattern. -/
def altToks (p : String) : List (List GlobTok) :=
  (splitBar p.data).map (fun a => a.map tokChar)

/-- Matching for the second and later alternatives: middle ones are
unanchored, the last one is end-anchored. -/
def midSuf : List (List GlobTok) → List Char → Bool
  | [], _ => false
  | [b], s => matchSuf b s
  | a :: rest, s => matchMid a s || midSuf rest s

/-- `candidate.match(globToRe(pattern)) !== null` from the source: a single
alternative is matched against the whole candidate; with several
alternatives, the first is anchored at the start only, the last at the end
only, and middle ones are unanchored. -/
def globToReMatch (p s : String) : Bool :=
  match altToks p with
  | [] => false
  | [alt] => globExact alt s.data
  | alt :: alts => matchPre alt s.data || midSuf alts s.data

/-- Declarative whole-string glob matching of one alternative, the spec-side
semantics: `star` consumes zero or more non-line-terminator characters,
literals match themselves. -/
inductive GlobMatches : List GlobTok → List Char → Prop
  | nil : GlobMatches [] []
  | lit (c : Char) {ts : List GlobTok} {s : List Char} :
      GlobMatches ts s → GlobMatches (.lit c :: ts) (c :: s)
  | starSkip {ts : List GlobTok} {s : List Char} :
      GlobMatches ts s → GlobMatches (.star :: ts) s
  | starCons {c : Char} {ts : List GlobTok} {s : List Char} :
      isDotChar c = true → GlobMatches (.star :: ts) s → GlobMatches (.star :: ts) (c :: s)

/-- Declarative semantics of the second and later alternatives: a middle
alternative matches some substring, the last alternative matches some
suffix. -/
def AltSem : List (List GlobTok) → List Char → Prop
  | [], _ => False
  | [b], s => ∃ u v, s = u ++ v ∧ GlobMatches b v
  | a :: rest, s => (∃ u v w, s = u ++ v ++ w ∧ GlobMatches a v) ∨ AltSem rest s

/-- Declarative semantics of the compiled pattern as a whole (the amended
reading of the Pattern Matcher contract): split on `|`; one alternative is
matched exactly; otherwise the first alternative matches a prefix, a middle
one a substring, or the last one a suffix. -/
def GlobReSem (p s : String) : Prop :=
  match altToks p with
  | [] => False
  | [alt] => GlobMatches alt s.data
  | alt :: alts => (∃ u v, s.data = u ++ v ∧ GlobMatches alt u) ∨ AltSem alts s.data

/-- All suffixes of a char list (what an unrestricted `*` can leave over). -/
def allSuffixes : List Char → List (List Char)
  | [] => [[]]
  | x :: xs => (x :: xs) :: allSuffixes xs

/-- The matcher the specification describes for C6: every character other
than `*` (including `|`) is literal, `*` matches zero or more arbitrary
characters, and the match is anchored at both ends. -/
def specStarAny : List GlobTok → List Char → Bool
  | [], s => s.isEmpty
  | .lit _ :: _, [] => false
  | .lit c :: ts, x :: xs => c == x && specStarAny ts xs
  | .star :: ts, s => (allSuffixes s).any (fun s2 => specStarAny ts s2)

/-- The claim-side literal matcher: tokenises the whole pattern without
alternation (so `|` is a literal) and matches the whole candidate. -/
def specLiteralGlobMatch (p s : String) : Bool :=
  specStarAny (p.data.map tokChar) s.data

/-! ### The marker filter (`filterDiagnostics`) -/

/-- Raw command arguments, as the `Args` interface: optional severity list
and optional source pattern list. -/
structure Args where
  severity : Option (List String) := none
  source : Option (List String) := none
deriving DecidableEq, Repr

/-- One arm of the severity `switch`: the array returned for a recognized
string, `undefined` (`none`) for an unrecognized one. -/
def argSeverityItems (s : String) : Option (List Severity) :=
  match s with
  | "error" => some [.error]
  | "warn" => some [.warning]
  | "warning" => some [.warning]
  | "info" => some [.information]
  | "information" => some [.information]
  | "hint" => some [.hint]
  | _ => none

/-- `args.severity.flatMap(...)`: `flatMap` splices returned arrays but keeps
a returned `undefined` as a single element, so an unrecognized string
contributes the element `none`. -/
def argSeverities (l : List String) : List (Option Severity) :=
  l.flatMap (fun s =>
    match argSeverityItems s with
    | some items => items.map some
    | none => [none])

/-- The default severity set `{Error, Warning}`. -/
def defaultSeverities : List (Option Severity) := [some .error, some .warning]

/-- The severity set used by `filterDiagnostics`: the flat-mapped argument
severities when that list is non-empty, the default otherwise. -/
def computeSeverities (args : Option Args) : List (Option Severity) :=
  match args with
  | none => defaultSeverities
  | some a =>
    match a.severity with
    | none => defaultSeverities
    | some l =>
      let s := argSeverities l
      if 0 < s.length then s else defaultSeverities

/-- The severity stage of `filterDiagnostics`:
`ds.filter((dg) => severities.has(dg.severity))`. -/
def severityFilter (ds : List Diagnostic) (args : Option Args) : List Diagnostic :=
  ds.filter (fun d => (computeSeverities args).contains (some d.severity))

/-- `dg.source !== undefined && dg.source.match(reSource) !== null`. -/
def sourceMatches (p : String) (d : Diagnostic) : Bool :=
  match d.source with
  | some s => globToReMatch p s
  | none => false

/-- The source-priority loop of `filterDiagnostics`: `"*"` short-circuits;
the first pattern with a non-empty match set wins; an exhausted loop returns
the empty list. -/
def sourceLoop : List String → List Diagnostic → List Diagnostic
  | [], _ => []
  | p :: rest, ds =>
    if p = "*" then ds
    else
      let dsOfSource := ds.filter (sourceMatches p)
      if 0 < dsOfSource.length then dsOfSource else sourceLoop rest ds

/-- `filterDiagnostics` from the source: severity stage, then (when a source
list is supplied — note an empty supplied list loops zero times and yields
`[]`) the source-priority loop. -/
def filterDiagnostics (ds : List Diagnostic) (args : Option Args) : List Diagnostic :=
  let ds2 := severityFilter ds args
  match args with
  | none => ds2
  | some a =>
    match a.source with
    | none => ds2
    | some srcs => sourceLoop srcs ds2

/-- `isFilterErrorOnly` from the source: true exactly when `args.severity` is
an array whose first element is `"error"`. -/
def isFilterErrorOnly (args : Option Args) : Bool :=
  match args with
  | none => false
  | some a =>
    match a.severity with
    | some l => decide (l.head? = some "error")
    | none => false

/-! ### The navigation session (`gotoMarkerInFile`) -/

/-- The session state `lastPosition`: document uri plus position of the last
selected marker. -/
structure LastPos where
  uri : String
  position : Pos
deriving DecidableEq, Repr

/-- The relevant state of the active text editor: its document uri and the
current selection. -/
structure Editor where
  uri : String
  selection : Range
deriving DecidableEq, Repr

/-- Navigation direction. -/
inductive Direction where
  | next
  | prev
deriving DecidableEq, Repr

/-- The observable outcome of one `gotoMarkerInFile` call: the boolean return
value, the session state afterwards, and the editor selection afterwards
(`none` when there is no active editor). -/
structure NavOutcome where
  found : Bool
  lastPosition : Option LastPos
  selection : Option Range
deriving DecidableEq, Repr

/-- The reset rule: `lastPosition` is cleared when it belongs to a document
other than the active one (`lastPosition?.uri.toString() !== editor.document.uri.toString()`). -/
def resetLastPos (lastPosition : Option LastPos) (ed : Editor) : Option LastPos :=
  match lastPosition with
  | some l => if l.uri = ed.uri then some l else none
  | none => none

/-- The dedup skip: `lastPosition && d.range.start.isEqual(lastPosition.position)`.
Only positions are compared, never document identity. -/
def skipMarker (lp : Option LastPos) (d : Diagnostic) : Bool :=
  match lp with
  | some l => d.range.start.isEqual l.position
  | none => false

/-- One step of the directional fold. -/
def stepDir (dir : Direction) (cursor : DiagnosticLoc) (acc : Option Diagnostic)
    (d : Diagnostic) : Option Diagnostic :=
  match dir with
  | .next => getCloserNext cursor d acc
  | .prev => getCloserPrev cursor d acc

/-- The candidate loop shared by `gotoMarkerInFile` and
`gotoNextMarkerInFiles`: fold the directional selector over all candidates,
skipping those whose start equals the remembered `lastPosition` position. -/
def navFold (lp : Option LastPos) (cursor : DiagnosticLoc) (dir : Direction)
    (ds : List Diagnostic) : Option Diagnostic :=
  ds.foldl (fun acc d => if skipMarker lp d then acc else stepDir dir cursor acc d) none

/-- Ordered insertion used to model `Array.prototype.sort(compareDiagnosticLoc)`
(a stable comparator sort). -/
def insertByCmp (x : Diagnostic) : List Diagnostic → List Diagnostic
  | [] => [x]
  | y :: ys =>
    if compareDiagnosticLoc y.toDiagnosticLoc x.toDiagnosticLoc ≤ 0 then y :: insertByCmp x ys
    else x :: y :: ys

/-- `sortDiagnostics` from the source: stable sort by `compareDiagnosticLoc`. -/
def sortDiagnostics (l : List Diagnostic) : List Diagnostic :=
  l.foldl (fun acc x => insertByCmp x acc) []

/-- The single-marker oscillation guard of the wraparound branch:
`lastPosition !== null && lastPosition.position.isEqual(next.range.start) &&
editor.selection.start.isEqual(next.range.start)`. -/
def atLastPosition (lp : Option LastPos) (sel : Range) (n : Diagnostic) : Bool :=
  match lp with
  | some l => l.position.isEqual n.range.start && sel.start.isEqual n.range.start
  | none => false

/-- The wraparound target: first element of the sorted candidates for "next",
last element for "prev". -/
def wrapTarget (dir : Direction) (sorted : List Diagnostic) : Option Diagnostic :=
  match dir with
  | .next => sorted.head?
  | .prev => sorted.getLast?

/-- `gotoMarkerInFile` from the source, as a pure function of the active
editor, the document's diagnostics, the arguments, the direction, the loop
flag and the session state.  Returns the boolean result together with the new
session state and selection. -/
def gotoMarkerInFile (editor : Option Editor) (docDiags : List Diagnostic)
    (args : Option Args) (dir : Direction) (loop : Bool)
    (lastPosition : Option LastPos) : NavOutcome :=
  match editor with
  | none => ⟨false, lastPosition, none⟩
  | some ed =>
    let diagnostics := filterDiagnostics docDiags args
    let lp := resetLastPos lastPosition ed
    if diagnostics.isEmpty then ⟨false, lp, some ed.selection⟩
    else
      let cursor : DiagnosticLoc := ⟨ed.selection, none⟩
      match navFold lp cursor dir diagnostics with
      | some n => ⟨true, some ⟨ed.uri, n.range.start⟩, some ⟨n.range.start, n.range.start⟩⟩
      | none =>
        if loop then
          match wrapTarget dir (sortDiagnostics diagnostics) with
          | none => ⟨false, lp, some ed.selection⟩
          | some n =>
            if atLastPosition lp ed.selection n then ⟨true, lp, some ed.selection⟩
            else ⟨true, some ⟨ed.uri, n.range.start⟩, some ⟨n.range.start, n.range.start⟩⟩
        else ⟨false, lp, some ed.selection⟩

/-! ## Theorems -/

/-- C1: the claim (and the function's own doc comment) say the null-accumulator
case of `getCloserPrev` is inclusive: a candidate at or before the cursor is
returned, and only a candidate strictly after the cursor yields null.  The
code uses the strict comparison `< 0`, so a marker starting exactly at the
cursor position (comparator value 0) yields null — while the mirrored
`getCloserNext` does accept a marker equal to the cursor. -/
theorem getCloserPrev_rejects_marker_at_cursor :
    getCloserPrev ⟨⟨⟨0, 0⟩, ⟨0, 0⟩⟩, none⟩ ⟨⟨⟨⟨0, 0⟩, ⟨0, 0⟩⟩, none⟩, .error, none⟩ none = none ∧
    compareDiagnosticLoc ⟨⟨⟨0, 0⟩, ⟨0, 0⟩⟩, none⟩ ⟨⟨⟨0, 0⟩, ⟨0, 0⟩⟩, none⟩ = 0 ∧
    getCloserNext ⟨⟨⟨0, 0⟩, ⟨0, 0⟩⟩, none⟩ ⟨⟨⟨⟨0, 0⟩, ⟨0, 0⟩⟩, none⟩, .error, none⟩ none =
      some ⟨⟨⟨⟨0, 0⟩, ⟨0, 0⟩⟩, none⟩, .error, none⟩ := by
  decide

/-- C2 counterexample: with mixed uri presence the comparator has a 3-cycle,
and the fold of `getCloserNext` can return a marker that is strictly greater
(under the comparator) than another candidate at-or-after the cursor, so the
result is not a minimum of the qualifying set (which here has no minimum). -/
theorem foldNext_result_not_minimal :
    foldNext ⟨⟨⟨0, 0⟩, ⟨0, 0⟩⟩, none⟩
      [⟨⟨⟨⟨0, 5⟩, ⟨0, 5⟩⟩, none⟩, .error, none⟩,
       ⟨⟨⟨⟨0, 3⟩, ⟨0, 3⟩⟩, some "b"⟩, .error, none⟩,
       ⟨⟨⟨⟨0, 7⟩, ⟨0, 7⟩⟩, some "a"⟩, .error, none⟩] =
      some ⟨⟨⟨⟨0, 7⟩, ⟨0, 7⟩⟩, some "a"⟩, .error, none⟩ ∧
    0 ≤ compareDiagnosticLoc ⟨⟨⟨0, 5⟩, ⟨0, 5⟩⟩, none⟩ ⟨⟨⟨0, 0⟩, ⟨0, 0⟩⟩, none⟩ ∧
    ¬ compareDiagnosticLoc ⟨⟨⟨0, 7⟩, ⟨0, 7⟩⟩, some "a"⟩ ⟨⟨⟨0, 5⟩, ⟨0, 5⟩⟩, none⟩ ≤ 0 := by
  decide

/-- C4 counterexample: transitivity of `compareDiagnosticLoc` fails when uri
presence is mixed: a > b and b > c by position (the uri-less location compares
by position against everything) while a < c by uri string. -/
theorem compareDiagnosticLoc_not_transitive :
    compareDiagnosticLoc ⟨⟨⟨0, 7⟩, ⟨0, 7⟩⟩, some "a"⟩ ⟨⟨⟨0, 5⟩, ⟨0, 5⟩⟩, none⟩ = 1 ∧
    compareDiagnosticLoc ⟨⟨⟨0, 5⟩, ⟨0, 5⟩⟩, none⟩ ⟨⟨⟨0, 3⟩, ⟨0, 3⟩⟩, some "b"⟩ = 1 ∧
    compareDiagnosticLoc ⟨⟨⟨0, 7⟩, ⟨0, 7⟩⟩, some "a"⟩ ⟨⟨⟨0, 3⟩, ⟨0, 3⟩⟩, some "b"⟩ = -1 := by
  decide

/-- C6 counterexample: the compiled pattern `a|b` matches the candidate `a`
(the `|` became regex alternation, `/^a|b$/`), while the matcher described by
the claim — every character including `|` literal, anchored both ends — does
not. -/
theorem globToReMatch_bar_is_alternation :
    globToReMatch "a|b" "a" = true ∧ specLiteralGlobMatch "a|b" "a" = false := by
  decide

/-- C7 counterexample: `isFilterErrorOnly` looks only at the first element of
the severity array, so it returns true for `["error", "hint"]` although that
filter also retains Hint markers — it is not the filter {Error} and nothing
else. -/
theorem isFilterErrorOnly_true_beyond_error_only :
    isFilterErrorOnly (some ⟨some ["error", "hint"], none⟩) = true ∧
    filterDiagnostics [⟨⟨⟨⟨0, 0⟩, ⟨0, 0⟩⟩, none⟩, .hint, none⟩]
        (some ⟨some ["error", "hint"], none⟩) =
      [⟨⟨⟨⟨0, 0⟩, ⟨0, 0⟩⟩, none⟩, .hint, none⟩] := by
  decide

/-- C7 amended: `isFilterErrorOnly` returns true exactly when args is present
and its severity field is an array whose first element is `"error"` (later
elements are never consulted). -/
theorem isFilterErrorOnly_iff_first_is_error :
    ∀ a : Option Args, isFilterErrorOnly a = true ↔
      ∃ x l, a = some x ∧ x.severity = some l ∧ l.head? = some "error" := by
  intro a
  match a with
  | none => simp [isFilterErrorOnly]
  | some x =>
    match h : x.severity with
    | none => simp [isFilterErrorOnly, h]
    | some l => simp [isFilterErrorOnly, h]

/-- C8: a non-empty severity list containing only unrecognized strings does
not fall back to the default filter.  The `flatMap` keeps `undefined` for the
unmatched switch, so the severity set becomes `{undefined}`, which retains no
marker at all — while the default `{Error, Warning}` retains the Error
marker. -/
theorem filterDiagnostics_unrecognized_severity_filters_all :
    filterDiagnostics [⟨⟨⟨⟨0, 0⟩, ⟨0, 0⟩⟩, none⟩, .error, none⟩]
        (some ⟨some ["bogus"], none⟩) = [] ∧
    filterDiagnostics [⟨⟨⟨⟨0, 0⟩, ⟨0, 0⟩⟩, none⟩, .error, none⟩] none =
      [⟨⟨⟨⟨0, 0⟩, ⟨0, 0⟩⟩, none⟩, .error, none⟩] ∧
    computeSeverities (some ⟨some ["bogus"], none⟩) = [none] := by
  decide

/-- C9 counterexample: a failing call can still change the session state.
With `lastPosition` pointing into document "A", an active editor on document
"B" and no diagnostics, the call returns false but the document-change reset
has already cleared `lastPosition`. -/
theorem gotoMarkerInFile_failure_can_clear_lastPosition :
    (gotoMarkerInFile (some ⟨"B", ⟨⟨0, 0⟩, ⟨0, 0⟩⟩⟩) [] none .next true
        (some ⟨"A", ⟨0, 0⟩⟩)).found = false ∧
    (gotoMarkerInFile (some ⟨"B", ⟨⟨0, 0⟩, ⟨0, 0⟩⟩⟩) [] none .next true
        (some ⟨"A", ⟨0, 0⟩⟩)).lastPosition = none := by
  decide

/-- The skip-fold equals the plain directional fold over the candidates whose
start position differs from the remembered position (helper). -/
theorem foldl_skip_eq_foldl_filter (l : LastPos) (cursor : DiagnosticLoc) (dir : Direction) :
    ∀ (ds : List Diagnostic) (acc : Option Diagnostic),
      ds.foldl (fun acc d => if skipMarker (some l) d then acc else stepDir dir cursor acc d) acc =
        (ds.filter (fun d => !(d.range.start.isEqual l.position))).foldl
          (stepDir dir cursor) acc := by
  intro ds
  induction ds with
  | nil => intro acc; rfl
  | cons d ds ih =>
    intro acc
    simp only [List.foldl_cons, List.filter_cons]
    by_cases hs : skipMarker (some l) d = true
    · have h2 : (!d.range.start.isEqual l.position) = false := by
        simp only [skipMarker] at hs
        simp [hs]
      rw [if_pos hs, h2]
      simp only [Bool.false_eq_true, if_false]
      exact ih acc
    · have h2 : (!d.range.start.isEqual l.position) = true := by
        simp only [skipMarker, Bool.not_eq_true] at hs
        simp [hs]
      rw [if_neg hs, h2]
      simp only [if_pos]
      exact ih (stepDir dir cursor acc d)

/-- C10: the dedup skip of the candidate loop compares only positions.  With
`lastPosition` set, the fold ranges exactly over the candidates whose range
start differs from `lastPosition.position` — the filter predicate never
consults the marker's uri or `lastPosition.uri`, so a marker in a different
document whose start equals the remembered position is skipped as well. -/
theorem navFold_skip_compares_positions_only :
    (∀ (l : LastPos) (cursor : DiagnosticLoc) (dir : Direction) (ds : List Diagnostic),
      navFold (some l) cursor dir ds =
        (ds.filter (fun d => !(d.range.start.isEqual l.position))).foldl
          (stepDir dir cursor) none) ∧
    (∀ (l : LastPos) (cursor : DiagnosticLoc) (dir : Direction) (d : Diagnostic)
      (ds : List Diagnostic),
      d.range.start.isEqual l.position = true →
      navFold (some l) cursor dir (d :: ds) = navFold (some l) cursor dir ds) := by
  constructor
  · intro l cursor dir ds
    exact foldl_skip_eq_foldl_filter l cursor dir ds none
  · intro l cursor dir d ds h
    simp [navFold, skipMarker, h]

/-- Witness for C10: a marker in document "B" whose start equals the
remembered position from document "A" is skipped. -/
theorem navFold_skip_compares_positions_only_witness :
    (⟨⟨⟨⟨0, 0⟩, ⟨0, 0⟩⟩, some "B"⟩, .error, none⟩ : Diagnostic).range.start.isEqual
        (⟨"A", ⟨0, 0⟩⟩ : LastPos).position = true ∧
    navFold (some ⟨"A", ⟨0, 0⟩⟩) ⟨⟨⟨0, 0⟩, ⟨0, 0⟩⟩, none⟩ .next
        [⟨⟨⟨⟨0, 0⟩, ⟨0, 0⟩⟩, some "B"⟩, .error, none⟩] =
      navFold (some ⟨"A", ⟨0, 0⟩⟩) ⟨⟨⟨0, 0⟩, ⟨0, 0⟩⟩, none⟩ .next [] :=
  ⟨by decide, navFold_skip_compares_positions_only.2 _ _ _ _ _ (by decide)⟩

/-- C9 amended: whenever `gotoMarkerInFile` reports no target (returns
false), the selection is untouched, and the only possible session-state
change is the document-change reset performed before the search: with no
active editor the state is exactly the entry state, otherwise it is
`resetLastPos` of the entry state (the entry value when its uri matches the
active document, cleared otherwise).  `lastPosition` is never set to a new
position on failure. -/
theorem gotoMarkerInFile_failure_only_resets :
    ∀ (editor : Option Editor) (docDiags : List Diagnostic) (args : Option Args)
      (dir : Direction) (loop : Bool) (lastPosition : Option LastPos),
      (gotoMarkerInFile editor docDiags args dir loop lastPosition).found = false →
      gotoMarkerInFile editor docDiags args dir loop lastPosition =
        ⟨false,
          (match editor with
            | none => lastPosition
            | some ed => resetLastPos lastPosition ed),
          editor.map Editor.selection⟩ ∧
      ((gotoMarkerInFile editor docDiags args dir loop lastPosition).lastPosition =
          lastPosition ∨
        (gotoMarkerInFile editor docDiags args dir loop lastPosition).lastPosition = none) := by
  intro editor docDiags args dir loop lastPosition h
  cases editor with
  | none =>
    refine ⟨rfl, Or.inl rfl⟩
  | some ed =>
    have hreset : resetLastPos lastPosition ed = lastPosition ∨
        resetLastPos lastPosition ed = none := by
      cases lastPosition with
      | none => exact Or.inr rfl
      | some l =>
        by_cases hu : l.uri = ed.uri <;> simp [resetLastPos, hu]
    simp only [gotoMarkerInFile] at h ⊢
    split at h
    · constructor
      · simp_all [Option.map]
      · rcases hreset with h1 | h1 <;> simp_all
    · split at h
      · simp at h
      · split at h
        · split at h
          · constructor
            · simp_all [Option.map]
            · rcases hreset with h1 | h1 <;> simp_all
          · split at h <;> simp at h
        · constructor
          · simp_all [Option.map]
          · rcases hreset with h1 | h1 <;> simp_all

/-- Characterization of the position ternary: non-positive means at-or-before
in the (line, character) lexicographic order (helper). -/
theorem comparePos_le_iff (p q : Pos) :
    comparePos p q ≤ 0 ↔ p.line < q.line ∨ (p.line = q.line ∧ p.character ≤ q.character) := by
  simp only [comparePos, Pos.isBefore, Pos.isEqual, Bool.or_eq_true, Bool.and_eq_true,
    decide_eq_true_eq, beq_iff_eq]
  split_ifs with h1 h2 <;> omega

/-- Characterization of the position ternary: negative means strictly before
(helper). -/
theorem comparePos_lt_iff (p q : Pos) :
    comparePos p q < 0 ↔ p.line < q.line ∨ (p.line = q.line ∧ p.character < q.character) := by
  simp only [comparePos, Pos.isBefore, Pos.isEqual, Bool.or_eq_true, Bool.and_eq_true,
    decide_eq_true_eq, beq_iff_eq]
  split_ifs with h1 h2 <;> omega

/-- Characterization of the position ternary: zero means equal start
coordinates (helper). -/
theorem comparePos_eq_zero_iff (p q : Pos) :
    comparePos p q = 0 ↔ p.line = q.line ∧ p.character = q.character := by
  simp only [comparePos, Pos.isBefore, Pos.isEqual, Bool.or_eq_true, Bool.and_eq_true,
    decide_eq_true_eq, beq_iff_eq]
  split_ifs with h1 h2
  · simp only [false_iff]
    omega
  · exact iff_of_true rfl h2
  · exact iff_of_false (by omega) h2

/-- The position ternary is sign-exchanged under argument swap (helper). -/
theorem comparePos_comm (p q : Pos) : comparePos q p = -comparePos p q := by
  simp only [comparePos, Pos.isBefore, Pos.isEqual, Bool.or_eq_true, Bool.and_eq_true,
    decide_eq_true_eq, beq_iff_eq]
  split_ifs <;> omega

/-- Characters with equal code points are equal (helper). -/
theorem char_toNat_inj {a b : Char} (h : a.toNat = b.toNat) : a = b := by
  apply Char.eq_of_val_eq
  unfold Char.toNat at h
  exact UInt32.toNat.inj h

/-- The character-code string order is transitive (helper). -/
theorem charListLt_trans :
    ∀ {a b c : List Char}, charListLt a b = true → charListLt b c = true →
      charListLt a c = true := by
  intro a
  induction a with
  | nil =>
    intro b c hab hbc
    cases b with
    | nil => simp [charListLt] at hab
    | cons y ys =>
      cases c with
      | nil => simp [charListLt] at hbc
      | cons z zs => simp [charListLt]
  | cons x xs ih =>
    intro b c hab hbc
    cases b with
    | nil => simp [charListLt] at hab
    | cons y ys =>
      cases c with
      | nil => simp [charListLt] at hbc
      | cons z zs =>
        simp only [charListLt, Bool.or_eq_true, Bool.and_eq_true, decide_eq_true_eq,
          beq_iff_eq] at hab hbc ⊢
        rcases hab with h1 | ⟨h1, h2⟩ <;> rcases hbc with h3 | ⟨h3, h4⟩
        · exact Or.inl (by omega)
        · exact Or.inl (by omega)
        · exact Or.inl (by omega)
        · exact Or.inr ⟨by omega, ih h2 h4⟩

/-- The character-code string order is asymmetric (helper). -/
theorem charListLt_asymm :
    ∀ {a b : List Char}, charListLt a b = true → charListLt b a = true → False := by
  intro a
  induction a with
  | nil =>
    intro b hab hba
    cases b with
    | nil => simp [charListLt] at hab
    | cons y ys => simp [charListLt] at hba
  | cons x xs ih =>
    intro b hab hba
    cases b with
    | nil => simp [charListLt] at hab
    | cons y ys =>
      simp only [charListLt, Bool.or_eq_true, Bool.and_eq_true, decide_eq_true_eq,
        beq_iff_eq] at hab hba
      rcases hab with h1 | ⟨h1, h2⟩ <;> rcases hba with h3 | ⟨h3, h4⟩
      · omega
      · omega
      · omega
      · exact ih h2 h4

/-- The character-code string order is total on distinct lists (helper). -/
theorem charListLt_total :
    ∀ {a b : List Char}, a ≠ b → charListLt a b = true ∨ charListLt b a = true := by
  intro a
  induction a with
  | nil =>
    intro b hne
    cases b with
    | nil => exact absurd rfl hne
    | cons y ys => exact Or.inl (by simp [charListLt])
  | cons x xs ih =>
    intro b hne
    cases b with
    | nil => exact Or.inr (by simp [charListLt])
    | cons y ys =>
      by_cases hx : x.toNat = y.toNat
      · have hxy : x = y := char_toNat_inj hx
        have hxs : xs ≠ ys := by
          intro h
          exact hne (by rw [hxy, h])
        rcases ih hxs with h | h
        · exact Or.inl (by
            simp only [charListLt, Bool.or_eq_true, Bool.and_eq_true, decide_eq_true_eq,
              beq_iff_eq]
            exact Or.inr ⟨hx, h⟩)
        · exact Or.inr (by
            simp only [charListLt, Bool.or_eq_true, Bool.and_eq_true, decide_eq_true_eq,
              beq_iff_eq]
            exact Or.inr ⟨hx.symm, h⟩)
      · rcases Nat.lt_or_ge x.toNat y.toNat with h | h
        · exact Or.inl (by
            simp only [charListLt, Bool.or_eq_true, Bool.and_eq_true, decide_eq_true_eq,
              beq_iff_eq]
            exact Or.inl h)
        · exact Or.inr (by
            simp only [charListLt, Bool.or_eq_true, Bool.and_eq_true, decide_eq_true_eq,
              beq_iff_eq]
            exact Or.inl (by omega))

/-- Distinct strings have distinct character lists (helper). -/
theorem data_ne_of_str_ne {u v : String} (h : u ≠ v) : u.data ≠ v.data := by
  intro hd
  exact h (String.ext hd)

/-- The branch value of the uri comparison is non-positive exactly when the
string order holds (helper). -/
theorem strBranch_le_iff (u v : String) :
    ((if strLt u v = true then (-1 : Int) else 1) ≤ 0) ↔ strLt u v = true := by
  split_ifs with h <;> simp [h]

/-- Asymmetry of the uri string order (helper). -/
theorem strLt_asymm {u v : String} (h : strLt u v = true) : strLt v u = false := by
  rcases hvu : strLt v u with _ | _
  · rfl
  · exact (charListLt_asymm h hvu).elim

/-- Totality of the uri string order on distinct strings (helper). -/
theorem strLt_total {u v : String} (h : u ≠ v) : strLt u v = true ∨ strLt v u = true :=
  charListLt_total (data_ne_of_str_ne h)

/-- Transitivity of the uri string order (helper). -/
theorem strLt_trans {u v w : String} (h1 : strLt u v = true) (h2 : strLt v w = true) :
    strLt u w = true :=
  charListLt_trans h1 h2

/-- The comparator returns 0 on identical locations (helper). -/
theorem compareDiagnosticLoc_self (a : DiagnosticLoc) : compareDiagnosticLoc a a = 0 := by
  have hp : comparePos a.range.start a.range.start = 0 :=
    (comparePos_eq_zero_iff _ _).mpr ⟨rfl, rfl⟩
  cases hu : a.uri with
  | none => simp [compareDiagnosticLoc, hu, hp]
  | some u => simp [compareDiagnosticLoc, hu, hp]

/-- The comparator is sign-exchanged under argument swap, for all locations,
mixed uri presence included (helper). -/
theorem compareDiagnosticLoc_comm (a b : DiagnosticLoc) :
    compareDiagnosticLoc b a = -compareDiagnosticLoc a b := by
  cases hua : a.uri with
  | none =>
    cases hub : b.uri with
    | none =>
      simp only [compareDiagnosticLoc, hua, hub]
      exact comparePos_comm _ _
    | some ub =>
      simp only [compareDiagnosticLoc, hua, hub]
      exact comparePos_comm _ _
  | some ua =>
    cases hub : b.uri with
    | none =>
      simp only [compareDiagnosticLoc, hua, hub]
      exact comparePos_comm _ _
    | some ub =>
      by_cases he : ua = ub
      · subst he
        simp only [compareDiagnosticLoc, hua, hub, if_pos rfl]
        exact comparePos_comm _ _
      · have hne : ub ≠ ua := fun h => he h.symm
        simp only [compareDiagnosticLoc, hua, hub, if_neg he, if_neg hne]
        by_cases hlt : strLt ua ub = true
        · rw [if_pos hlt, strLt_asymm hlt]
          norm_num
        · have hba : strLt ub ua = true := by
            rcases strLt_total he with h | h
            · exact absurd h hlt
            · exact h
          have hf : strLt ua ub = false := by
            rcases hx : strLt ua ub with _ | _
            · rfl
            · exact absurd hx hlt
          rw [hf, hba]
          norm_num

/-- The comparator is transitive (in the at-or-before form) on any three
locations of uniform uri presence (helper). -/
theorem compareDiagnosticLoc_trans_le (a b c : DiagnosticLoc) (hu : uriUniform3 a b c)
    (hab : compareDiagnosticLoc a b ≤ 0) (hbc : compareDiagnosticLoc b c ≤ 0) :
    compareDiagnosticLoc a c ≤ 0 := by
  rcases hu with ⟨ha, hb, hc⟩ | ⟨ha, hb, hc⟩
  · simp only [compareDiagnosticLoc, ha, hb, hc] at hab hbc ⊢
    rw [comparePos_le_iff] at hab hbc ⊢
    omega
  · obtain ⟨ua, hua⟩ := Option.ne_none_iff_exists'.mp ha
    obtain ⟨ub, hub⟩ := Option.ne_none_iff_exists'.mp hb
    obtain ⟨uc, huc⟩ := Option.ne_none_iff_exists'.mp hc
    simp only [compareDiagnosticLoc, hua, hub, huc] at hab hbc ⊢
    by_cases h1 : ua = ub <;> by_cases h2 : ub = uc
    · rw [if_pos h1] at hab
      rw [if_pos h2] at hbc
      rw [if_pos (h1.trans h2)]
      rw [comparePos_le_iff] at hab hbc ⊢
      omega
    · rw [if_pos h1] at hab
      rw [if_neg h2, strBranch_le_iff] at hbc
      have hac : ua ≠ uc := fun hh => h2 (by rw [← h1]; exact hh)
      rw [if_neg hac, strBranch_le_iff, h1]
      exact hbc
    · rw [if_neg h1, strBranch_le_iff] at hab
      rw [if_pos h2] at hbc
      have hac : ua ≠ uc := fun hh => h1 (hh.trans h2.symm)
      rw [if_neg hac, strBranch_le_iff, ← h2]
      exact hab
    · rw [if_neg h1, strBranch_le_iff] at hab
      rw [if_neg h2, strBranch_le_iff] at hbc
      have hac : ua ≠ uc := by
        intro hh
        subst hh
        exact charListLt_asymm hab hbc
      rw [if_neg hac, strBranch_le_iff]
      exact strLt_trans hab hbc

/-- C4 amended: `compareDiagnosticLoc` returns 0 on identical locations and
is sign-exchanged under argument swap for all locations (mixed uri presence
included), and it is transitive on every triple of locations that uniformly
all have or all lack a documentId.  With mixed presence transitivity fails
(see the counterexample), so the comparator is a total order on each uniform
domain but not on the full location space. -/
theorem compareDiagnosticLoc_order_laws :
    (∀ a : DiagnosticLoc, compareDiagnosticLoc a a = 0) ∧
    (∀ a b : DiagnosticLoc, compareDiagnosticLoc b a = -compareDiagnosticLoc a b) ∧
    (∀ a b c : DiagnosticLoc, uriUniform3 a b c →
      compareDiagnosticLoc a b ≤ 0 → compareDiagnosticLoc b c ≤ 0 →
      compareDiagnosticLoc a c ≤ 0) :=
  ⟨compareDiagnosticLoc_self, compareDiagnosticLoc_comm, compareDiagnosticLoc_trans_le⟩

/-- Witness for C4: the transitivity part applied at three concrete
uri-carrying locations. -/
theorem compareDiagnosticLoc_order_laws_witness :
    uriUniform3 ⟨⟨⟨0, 1⟩, ⟨0, 1⟩⟩, some "a"⟩ ⟨⟨⟨0, 0⟩, ⟨0, 0⟩⟩, some "b"⟩
      ⟨⟨⟨0, 5⟩, ⟨0, 5⟩⟩, some "c"⟩ ∧
    compareDiagnosticLoc ⟨⟨⟨0, 1⟩, ⟨0, 1⟩⟩, some "a"⟩ ⟨⟨⟨0, 0⟩, ⟨0, 0⟩⟩, some "b"⟩ ≤ 0 ∧
    compareDiagnosticLoc ⟨⟨⟨0, 0⟩, ⟨0, 0⟩⟩, some "b"⟩ ⟨⟨⟨0, 5⟩, ⟨0, 5⟩⟩, some "c"⟩ ≤ 0 ∧
    compareDiagnosticLoc ⟨⟨⟨0, 1⟩, ⟨0, 1⟩⟩, some "a"⟩ ⟨⟨⟨0, 5⟩, ⟨0, 5⟩⟩, some "c"⟩ ≤ 0 :=
  ⟨by unfold uriUniform3; decide, by decide, by decide,
    compareDiagnosticLoc_order_laws.2.2 ⟨⟨⟨0, 1⟩, ⟨0, 1⟩⟩, some "a"⟩
      ⟨⟨⟨0, 0⟩, ⟨0, 0⟩⟩, some "b"⟩ ⟨⟨⟨0, 5⟩, ⟨0, 5⟩⟩, some "c"⟩
      (by unfold uriUniform3; decide) (by decide) (by decide)⟩

/-- Witness for C9: the amended failure contract applied at a concrete input
(the reset scenario: entry state for document "A", active document "B", no
diagnostics). -/
theorem gotoMarkerInFile_failure_only_resets_witness :
    (gotoMarkerInFile (some ⟨"B", ⟨⟨0, 0⟩, ⟨0, 0⟩⟩⟩) [] none .next true
        (some ⟨"A", ⟨0, 0⟩⟩)).found = false ∧
    gotoMarkerInFile (some ⟨"B", ⟨⟨0, 0⟩, ⟨0, 0⟩⟩⟩) [] none .next true
        (some ⟨"A", ⟨0, 0⟩⟩) =
      ⟨false, resetLastPos (some ⟨"A", ⟨0, 0⟩⟩) ⟨"B", ⟨⟨0, 0⟩, ⟨0, 0⟩⟩⟩,
        some ⟨⟨0, 0⟩, ⟨0, 0⟩⟩⟩ :=
  ⟨by decide,
    (gotoMarkerInFile_failure_only_resets (some ⟨"B", ⟨⟨0, 0⟩, ⟨0, 0⟩⟩⟩) [] none .next true
      (some ⟨"A", ⟨0, 0⟩⟩) (by decide)).1⟩

/-- `getCloserNext` never drops a non-null accumulator (helper). -/
theorem getCloserNext_some (c : DiagnosticLoc) (d b : Diagnostic) :
    getCloserNext c d (some b) = some d ∨ getCloserNext c d (some b) = some b := by
  rw [show getCloserNext c d (some b) =
    if 0 ≤ compareDiagnosticLoc d.toDiagnosticLoc c ∧
        0 < compareDiagnosticLoc b.toDiagnosticLoc d.toDiagnosticLoc then some d
    else some b from rfl]
  split_ifs <;> [exact Or.inl rfl; exact Or.inr rfl]

/-- Once the `getCloserNext` fold holds a marker it keeps holding one
(helper). -/
theorem foldNext_some_acc (c : DiagnosticLoc) :
    ∀ (S : List Diagnostic) (b : Diagnostic),
      ∃ m, S.foldl (fun acc d => getCloserNext c d acc) (some b) = some m := by
  intro S
  induction S with
  | nil => exact fun b => ⟨b, rfl⟩
  | cons d S ih =>
    intro b
    simp only [List.foldl_cons]
    rcases getCloserNext_some c d b with h | h <;> rw [h] <;> exact ih _

/-- The `getCloserNext` fold returns null exactly when every candidate is
strictly before the cursor (helper, no uniformity needed). -/
theorem foldNext_eq_none_iff (c : DiagnosticLoc) (S : List Diagnostic) :
    foldNext c S = none ↔
      ∀ d ∈ S, compareDiagnosticLoc d.toDiagnosticLoc c < 0 := by
  unfold foldNext
  induction S with
  | nil => simp
  | cons d S ih =>
    simp only [List.foldl_cons]
    by_cases h : 0 ≤ compareDiagnosticLoc d.toDiagnosticLoc c
    · have hstep : getCloserNext c d none = some d := by
        rw [show getCloserNext c d none =
          if 0 ≤ compareDiagnosticLoc d.toDiagnosticLoc c then some d else none from rfl,
          if_pos h]
      rw [hstep]
      apply iff_of_false
      · obtain ⟨m, hm⟩ := foldNext_some_acc c S d
        rw [hm]
        exact fun hh => Option.noConfusion hh
      · intro hall
        have := hall d (List.mem_cons_self d S)
        omega
    · have hstep : getCloserNext c d none = none := by
        rw [show getCloserNext c d none =
          if 0 ≤ compareDiagnosticLoc d.toDiagnosticLoc c then some d else none from rfl,
          if_neg h]
      rw [hstep, ih]
      simp only [List.mem_cons]
      constructor
      · intro hall e he
        rcases he with rfl | he2
        · omega
        · exact hall e he2
      · intro hall e he
        exact hall e (Or.inr he)

/-- Core invariant of the `getCloserNext` fold: on a domain `U` where the
comparator is transitive, a returned marker comes from the accumulator or the
list, is at-or-after the cursor, and is a comparator lower bound of the
accumulator and of every at-or-after candidate (helper). -/
theorem foldNext_min_aux (c : DiagnosticLoc) (U : DiagnosticLoc → Prop)
    (hU : ∀ x y z : DiagnosticLoc, U x → U y → U z →
      compareDiagnosticLoc x y ≤ 0 → compareDiagnosticLoc y z ≤ 0 →
      compareDiagnosticLoc x z ≤ 0) :
    ∀ (S : List Diagnostic) (acc : Option Diagnostic),
      (∀ d ∈ S, U d.toDiagnosticLoc) →
      (∀ a, acc = some a →
        U a.toDiagnosticLoc ∧ 0 ≤ compareDiagnosticLoc a.toDiagnosticLoc c) →
      ∀ m, S.foldl (fun acc d => getCloserNext c d acc) acc = some m →
        (acc = some m ∨ m ∈ S) ∧
        U m.toDiagnosticLoc ∧
        0 ≤ compareDiagnosticLoc m.toDiagnosticLoc c ∧
        (∀ a, acc = some a →
          compareDiagnosticLoc m.toDiagnosticLoc a.toDiagnosticLoc ≤ 0) ∧
        (∀ d ∈ S, 0 ≤ compareDiagnosticLoc d.toDiagnosticLoc c →
          compareDiagnosticLoc m.toDiagnosticLoc d.toDiagnosticLoc ≤ 0) := by
  intro S
  induction S with
  | nil =>
    intro acc hS hacc m hfold
    simp only [List.foldl_nil] at hfold
    obtain ⟨hUm, hge⟩ := hacc m hfold
    refine ⟨Or.inl hfold, hUm, hge, ?_, ?_⟩
    · intro a ha
      rw [hfold] at ha
      have hh : m = a := Option.some.inj ha
      rw [hh]
      have := compareDiagnosticLoc_self a.toDiagnosticLoc
      omega
    · intro d hd
      exact absurd hd (List.not_mem_nil d)
  | cons d S ih =>
    intro acc hS hacc m hfold
    have hUd : U d.toDiagnosticLoc := hS d (List.mem_cons_self d S)
    have hStail : ∀ e ∈ S, U e.toDiagnosticLoc := fun e he => hS e (List.mem_cons_of_mem d he)
    simp only [List.foldl_cons] at hfold
    cases acc with
    | none =>
      by_cases h : 0 ≤ compareDiagnosticLoc d.toDiagnosticLoc c
      · have hstep : getCloserNext c d none = some d := by
          rw [show getCloserNext c d none =
            if 0 ≤ compareDiagnosticLoc d.toDiagnosticLoc c then some d else none from rfl,
            if_pos h]
        rw [hstep] at hfold
        obtain ⟨hmem, hUm, hge, haccb, hlistb⟩ :=
          ih (some d) hStail (fun a ha => by
            have : a = d := (Option.some.inj ha).symm
            subst this
            exact ⟨hUd, h⟩) m hfold
        refine ⟨?_, hUm, hge, ?_, ?_⟩
        · rcases hmem with h1 | h1
          · exact Or.inr (by
              have hmd : d = m := Option.some.inj h1
              rw [← hmd]
              exact List.mem_cons_self d S)
          · exact Or.inr (List.mem_cons_of_mem d h1)
        · intro a ha
          exact Option.noConfusion ha
        · intro e he hge2
          rcases List.mem_cons.mp he with rfl | he2
          · exact haccb e rfl
          · exact hlistb e he2 hge2
      · have hstep : getCloserNext c d none = none := by
          rw [show getCloserNext c d none =
            if 0 ≤ compareDiagnosticLoc d.toDiagnosticLoc c then some d else none from rfl,
            if_neg h]
        rw [hstep] at hfold
        obtain ⟨hmem, hUm, hge, haccb, hlistb⟩ :=
          ih none hStail (fun a ha => Option.noConfusion ha) m hfold
        refine ⟨?_, hUm, hge, ?_, ?_⟩
        · rcases hmem with h1 | h1
          · exact Option.noConfusion h1
          · exact Or.inr (List.mem_cons_of_mem d h1)
        · intro a ha
          exact Option.noConfusion ha
        · intro e he hge2
          rcases List.mem_cons.mp he with rfl | he2
          · exact absurd hge2 h
          · exact hlistb e he2 hge2
    | some b =>
      obtain ⟨hUb, hgeb⟩ := hacc b rfl
      by_cases h : 0 ≤ compareDiagnosticLoc d.toDiagnosticLoc c ∧
          0 < compareDiagnosticLoc b.toDiagnosticLoc d.toDiagnosticLoc
      · have hstep : getCloserNext c d (some b) = some d := by
          rw [show getCloserNext c d (some b) =
            if 0 ≤ compareDiagnosticLoc d.toDiagnosticLoc c ∧
                0 < compareDiagnosticLoc b.toDiagnosticLoc d.toDiagnosticLoc then some d
            else some b from rfl, if_pos h]
        rw [hstep] at hfold
        obtain ⟨hmem, hUm, hge, haccb, hlistb⟩ :=
          ih (some d) hStail (fun a ha => by
            have : a = d := (Option.some.inj ha).symm
            subst this
            exact ⟨hUd, h.1⟩) m hfold
        have hmd : compareDiagnosticLoc m.toDiagnosticLoc d.toDiagnosticLoc ≤ 0 :=
          haccb d rfl
        have hdb : compareDiagnosticLoc d.toDiagnosticLoc b.toDiagnosticLoc ≤ 0 := by
          have hcm := compareDiagnosticLoc_comm b.toDiagnosticLoc d.toDiagnosticLoc
          omega
        refine ⟨?_, hUm, hge, ?_, ?_⟩
        · rcases hmem with h1 | h1
          · exact Or.inr (by
              have hmd : d = m := Option.some.inj h1
              rw [← hmd]
              exact List.mem_cons_self d S)
          · exact Or.inr (List.mem_cons_of_mem d h1)
        · intro a ha
          have : a = b := (Option.some.inj ha).symm
          subst this
          exact hU m.toDiagnosticLoc d.toDiagnosticLoc a.toDiagnosticLoc hUm hUd hUb hmd hdb
        · intro e he hge2
          rcases List.mem_cons.mp he with rfl | he2
          · exact hmd
          · exact hlistb e he2 hge2
      · have hstep : getCloserNext c d (some b) = some b := by
          rw [show getCloserNext c d (some b) =
            if 0 ≤ compareDiagnosticLoc d.toDiagnosticLoc c ∧
                0 < compareDiagnosticLoc b.toDiagnosticLoc d.toDiagnosticLoc then some d
            else some b from rfl, if_neg h]
        rw [hstep] at hfold
        obtain ⟨hmem, hUm, hge, haccb, hlistb⟩ :=
          ih (some b) hStail (fun a ha => by
            have : a = b := (Option.some.inj ha).symm
            subst this
            exact ⟨hUb, hgeb⟩) m hfold
        have hmb : compareDiagnosticLoc m.toDiagnosticLoc b.toDiagnosticLoc ≤ 0 :=
          haccb b rfl
        refine ⟨?_, hUm, hge, ?_, ?_⟩
        · rcases hmem with h1 | h1
          · exact Or.inl h1
          · exact Or.inr (List.mem_cons_of_mem d h1)
        · intro a ha
          have : a = b := (Option.some.inj ha).symm
          subst this
          exact hmb
        · intro e he hge2
          rcases List.mem_cons.mp he with rfl | he2
          · have hbd : compareDiagnosticLoc b.toDiagnosticLoc e.toDiagnosticLoc ≤ 0 := by
              rcases not_and_or.mp h with h1 | h1
              · exact absurd hge2 h1
              · omega
            exact hU m.toDiagnosticLoc b.toDiagnosticLoc e.toDiagnosticLoc hUm hUb
              (hS e (List.mem_cons_self e S)) hmb hbd
          · exact hlistb e he2 hge2

/-- C2 amended: when the cursor and all candidates have uniform uri presence
(all lack a documentId, as in in-file navigation, or all have one, as in
cross-file navigation), the fold of `getCloserNext` over S starting from null
yields null exactly when no element of S is at-or-after the cursor, and
otherwise yields a member of S that is at-or-after the cursor and is a
comparator lower bound of every at-or-after element — i.e. it compares
less-or-equal (hence equal to any minimum) of {s in S : s >= C}.  With mixed
uri presence the comparator is not transitive and the minimality claim fails
(see the counterexample). -/
theorem foldNext_yields_min (c : DiagnosticLoc) (S : List Diagnostic)
    (hu : uriUniform c S) :
    (foldNext c S = none ↔
      ∀ d ∈ S, compareDiagnosticLoc d.toDiagnosticLoc c < 0) ∧
    (∀ m, foldNext c S = some m →
      m ∈ S ∧ 0 ≤ compareDiagnosticLoc m.toDiagnosticLoc c ∧
      ∀ d ∈ S, 0 ≤ compareDiagnosticLoc d.toDiagnosticLoc c →
        compareDiagnosticLoc m.toDiagnosticLoc d.toDiagnosticLoc ≤ 0) := by
  constructor
  · exact foldNext_eq_none_iff c S
  · intro m hm
    unfold foldNext at hm
    rcases hu with ⟨hc, hS⟩ | ⟨hc, hS⟩
    · have hUnone : ∀ x y z : DiagnosticLoc, x.uri = none → y.uri = none → z.uri = none →
          compareDiagnosticLoc x y ≤ 0 → compareDiagnosticLoc y z ≤ 0 →
          compareDiagnosticLoc x z ≤ 0 :=
        fun x y z hx hy hz => compareDiagnosticLoc_trans_le x y z (Or.inl ⟨hx, hy, hz⟩)
      obtain ⟨hmem, _, hge, _, hmin⟩ :=
        foldNext_min_aux c (fun l => l.uri = none) hUnone S none hS
          (fun a ha => Option.noConfusion ha) m hm
      rcases hmem with h1 | h1
      · exact Option.noConfusion h1
      · exact ⟨h1, hge, hmin⟩
    · have hUsome : ∀ x y z : DiagnosticLoc, x.uri ≠ none → y.uri ≠ none → z.uri ≠ none →
          compareDiagnosticLoc x y ≤ 0 → compareDiagnosticLoc y z ≤ 0 →
          compareDiagnosticLoc x z ≤ 0 :=
        fun x y z hx hy hz => compareDiagnosticLoc_trans_le x y z (Or.inr ⟨hx, hy, hz⟩)
      obtain ⟨hmem, _, hge, _, hmin⟩ :=
        foldNext_min_aux c (fun l => l.uri ≠ none) hUsome S none hS
          (fun a ha => Option.noConfusion ha) m hm
      rcases hmem with h1 | h1
      · exact Option.noConfusion h1
      · exact ⟨h1, hge, hmin⟩

/-- Witness for C2: the amended fold contract applied to a concrete uri-less
cursor and candidate list; the fold result (0,3) is a comparator lower bound
of the qualifying candidate (0,5). -/
theorem foldNext_yields_min_witness :
    uriUniform ⟨⟨⟨0, 0⟩, ⟨0, 0⟩⟩, none⟩
      [⟨⟨⟨⟨0, 5⟩, ⟨0, 5⟩⟩, none⟩, .error, none⟩,
       ⟨⟨⟨⟨0, 3⟩, ⟨0, 3⟩⟩, none⟩, .error, none⟩] ∧
    compareDiagnosticLoc
      (⟨⟨⟨⟨0, 3⟩, ⟨0, 3⟩⟩, none⟩, .error, none⟩ : Diagnostic).toDiagnosticLoc
      (⟨⟨⟨⟨0, 5⟩, ⟨0, 5⟩⟩, none⟩, .error, none⟩ : Diagnostic).toDiagnosticLoc ≤ 0 :=
  ⟨by unfold uriUniform; decide,
    ((foldNext_yields_min ⟨⟨⟨0, 0⟩, ⟨0, 0⟩⟩, none⟩
        [⟨⟨⟨⟨0, 5⟩, ⟨0, 5⟩⟩, none⟩, .error, none⟩,
         ⟨⟨⟨⟨0, 3⟩, ⟨0, 3⟩⟩, none⟩, .error, none⟩]
        (by unfold uriUniform; decide)).2
      ⟨⟨⟨⟨0, 3⟩, ⟨0, 3⟩⟩, none⟩, .error, none⟩ (by decide)).2.2
      ⟨⟨⟨⟨0, 5⟩, ⟨0, 5⟩⟩, none⟩, .error, none⟩ (by decide) (by decide)⟩

/-- `filterDiagnostics` with a supplied source list is the source loop run on
the severity-filtered markers (helper). -/
theorem filterDiagnostics_eq_sourceLoop (ds : List Diagnostic) (a : Args)
    (srcs : List String) (h : a.source = some srcs) :
    filterDiagnostics ds (some a) = sourceLoop srcs (severityFilter ds (some a)) := by
  simp only [filterDiagnostics, h]

/-- A non-`*` pattern with at least one matching marker terminates the source
loop with exactly the matching markers (helper). -/
theorem sourceLoop_first_match (p : String) (rest : List String) (ds : List Diagnostic)
    (hne : p ≠ "*") (hex : ∃ d ∈ ds, sourceMatches p d = true) :
    sourceLoop (p :: rest) ds = ds.filter (sourceMatches p) := by
  simp only [sourceLoop]
  rw [if_neg hne]
  have hpos : 0 < (ds.filter (sourceMatches p)).length := by
    obtain ⟨d, hd, hm⟩ := hex
    have hmem : d ∈ ds.filter (sourceMatches p) := List.mem_filter.mpr ⟨hd, hm⟩
    refine List.length_pos.mpr ?_
    intro hnil
    rw [hnil] at hmem
    exact List.not_mem_nil d hmem
  rw [if_pos hpos]

/-- A `*` pattern short-circuits the source loop (helper). -/
theorem sourceLoop_star (rest : List String) (ds : List Diagnostic) :
    sourceLoop ("*" :: rest) ds = ds := by
  simp [sourceLoop]

/-- A non-`*` pattern matching no marker is skipped by the source loop
(helper). -/
theorem sourceLoop_skip (p : String) (rest : List String) (ds : List Diagnostic)
    (hne : p ≠ "*") (hnone : ∀ d ∈ ds, sourceMatches p d = false) :
    sourceLoop (p :: rest) ds = sourceLoop rest ds := by
  simp only [sourceLoop]
  rw [if_neg hne]
  have hnil : ds.filter (sourceMatches p) = [] := by
    rw [List.filter_eq_nil_iff]
    intro d hd
    rw [hnone d hd]
    exact Bool.false_ne_true
  rw [hnil]
  simp

/-- An exhausted source loop (no `*`, nothing matches) returns the empty list
(helper). -/
theorem sourceLoop_exhaust (srcs : List String) (ds : List Diagnostic)
    (hstar : "*" ∉ srcs)
    (hnone : ∀ p ∈ srcs, ∀ d ∈ ds, sourceMatches p d = false) :
    sourceLoop srcs ds = [] := by
  induction srcs with
  | nil => rfl
  | cons p rest ih =>
    have hne : p ≠ "*" := fun h => hstar (h ▸ List.mem_cons_self p rest)
    rw [sourceLoop_skip p rest ds hne (hnone p (List.mem_cons_self p rest))]
    exact ih (fun h => hstar (List.mem_cons_of_mem p h))
      (fun q hq => hnone q (List.mem_cons_of_mem p hq))

/-- If every pattern before some `*` matches nothing, the loop returns the
whole input set (helper). -/
theorem sourceLoop_reaches_star (pre post : List String) (ds : List Diagnostic)
    (hnone : ∀ p ∈ pre, ∀ d ∈ ds, sourceMatches p d = false) :
    sourceLoop (pre ++ "*" :: post) ds = ds := by
  induction pre with
  | nil => exact sourceLoop_star post ds
  | cons p pre ih =>
    by_cases hne : p = "*"
    · subst hne
      exact sourceLoop_star (pre ++ "*" :: post) ds
    · rw [List.cons_append,
        sourceLoop_skip p (pre ++ "*" :: post) ds hne (hnone p (List.mem_cons_self p pre))]
      exact ih (fun q hq => hnone q (List.mem_cons_of_mem p hq))

/-- C3: source-pattern priority of `filterDiagnostics` for a non-empty
pattern list.  (1) If the first pattern is not `*` and matches the source of
at least one severity-retained marker, the result is exactly the
severity-retained markers matching that first pattern — markers matched only
by later patterns never appear.  (2) A pattern equal to `*` short-circuits:
when every pattern before some `*` matches nothing, the entire
severity-filtered set is returned (in particular when `*` is first).  (3)
When no pattern is `*` and no pattern matches any severity-retained marker,
the result is empty. -/
theorem filterDiagnostics_source_priority (ds : List Diagnostic) (a : Args)
    (p1 : String) (rest : List String) (hsrc : a.source = some (p1 :: rest)) :
    ((p1 ≠ "*" →
      (∃ d ∈ severityFilter ds (some a), sourceMatches p1 d = true) →
      filterDiagnostics ds (some a) =
        (severityFilter ds (some a)).filter (sourceMatches p1)) ∧
    (∀ pre post, p1 :: rest = pre ++ "*" :: post →
      (∀ p ∈ pre, ∀ d ∈ severityFilter ds (some a), sourceMatches p d = false) →
      filterDiagnostics ds (some a) = severityFilter ds (some a)) ∧
    ("*" ∉ p1 :: rest →
      (∀ p ∈ p1 :: rest, ∀ d ∈ severityFilter ds (some a), sourceMatches p d = false) →
      filterDiagnostics ds (some a) = [])) := by
  refine ⟨?_, ?_, ?_⟩
  · intro hne hex
    rw [filterDiagnostics_eq_sourceLoop ds a (p1 :: rest) hsrc]
    exact sourceLoop_first_match p1 rest (severityFilter ds (some a)) hne hex
  · intro pre post hsplit hnone
    rw [filterDiagnostics_eq_sourceLoop ds a (p1 :: rest) hsrc, hsplit]
    exact sourceLoop_reaches_star pre post (severityFilter ds (some a)) hnone
  · intro hstar hnone
    rw [filterDiagnostics_eq_sourceLoop ds a (p1 :: rest) hsrc]
    exact sourceLoop_exhaust (p1 :: rest) (severityFilter ds (some a)) hstar hnone

/-- Witness for C3: the README example — severity default, patterns
`["jsonc", "*"]`, one eslint marker and one jsonc marker; the result is
exactly the jsonc marker. -/
theorem filterDiagnostics_source_priority_witness :
    (some (["jsonc", "*"] : List String) = some ["jsonc", "*"]) ∧
    ("jsonc" : String) ≠ "*" ∧
    (∃ d ∈ severityFilter
        [⟨⟨⟨⟨0, 0⟩, ⟨0, 0⟩⟩, none⟩, .error, some "eslint"⟩,
         ⟨⟨⟨⟨1, 0⟩, ⟨1, 0⟩⟩, none⟩, .error, some "jsonc"⟩]
        (some ⟨none, some ["jsonc", "*"]⟩), sourceMatches "jsonc" d = true) ∧
    filterDiagnostics
        [⟨⟨⟨⟨0, 0⟩, ⟨0, 0⟩⟩, none⟩, .error, some "eslint"⟩,
         ⟨⟨⟨⟨1, 0⟩, ⟨1, 0⟩⟩, none⟩, .error, some "jsonc"⟩]
        (some ⟨none, some ["jsonc", "*"]⟩) =
      (severityFilter
        [⟨⟨⟨⟨0, 0⟩, ⟨0, 0⟩⟩, none⟩, .error, some "eslint"⟩,
         ⟨⟨⟨⟨1, 0⟩, ⟨1, 0⟩⟩, none⟩, .error, some "jsonc"⟩]
        (some ⟨none, some ["jsonc", "*"]⟩)).filter (sourceMatches "jsonc") :=
  ⟨rfl, by decide, by decide,
    (filterDiagnostics_source_priority
      [⟨⟨⟨⟨0, 0⟩, ⟨0, 0⟩⟩, none⟩, .error, some "eslint"⟩,
       ⟨⟨⟨⟨1, 0⟩, ⟨1, 0⟩⟩, none⟩, .error, some "jsonc"⟩]
      ⟨none, some ["jsonc", "*"]⟩ "jsonc" ["*"] rfl).1 (by decide) (by decide)⟩

/-- Ordered insertion grows the length by one (helper). -/
theorem insertByCmp_length (x : Diagnostic) :
    ∀ l : List Diagnostic, (insertByCmp x l).length = l.length + 1 := by
  intro l
  induction l with
  | nil => rfl
  | cons y ys ih =>
    simp only [insertByCmp]
    split_ifs with h
    · simp only [List.length_cons, ih]
    · simp

/-- The insertion fold preserves total length (helper). -/
theorem foldl_insertByCmp_length :
    ∀ (l : List Diagnostic) (acc : List Diagnostic),
      (l.foldl (fun acc x => insertByCmp x acc) acc).length = acc.length + l.length := by
  intro l
  induction l with
  | nil => intro acc; simp
  | cons x xs ih =>
    intro acc
    simp only [List.foldl_cons]
    rw [ih, insertByCmp_length]
    simp only [List.length_cons]
    omega

/-- Sorting preserves length (helper). -/
theorem sortDiagnostics_length (l : List Diagnostic) :
    (sortDiagnostics l).length = l.length := by
  unfold sortDiagnostics
  rw [foldl_insertByCmp_length]
  simp

/-- Sorting a non-empty list is non-empty (helper). -/
theorem sortDiagnostics_ne_nil {l : List Diagnostic} (h : l ≠ []) :
    sortDiagnostics l ≠ [] := by
  intro hnil
  have hlen := sortDiagnostics_length l
  rw [hnil] at hlen
  exact h (List.length_eq_zero.mp hlen.symm)

/-- The wraparound target exists whenever the candidate set is non-empty
(helper). -/
theorem wrapTarget_isSome (dir : Direction) {l : List Diagnostic} (h : l ≠ []) :
    wrapTarget dir (sortDiagnostics l) ≠ none := by
  have hs := sortDiagnostics_ne_nil h
  cases dir with
  | next =>
    simp only [wrapTarget]
    rw [Ne, List.head?_eq_none_iff]
    exact hs
  | prev =>
    simp only [wrapTarget]
    rw [Ne, List.getLast?_eq_none_iff]
    exact hs

/-- C5: wraparound of `gotoMarkerInFile` with loop enabled.  When the
directional fold over the non-skipped candidates yields null and the filtered
set is non-empty, a wraparound target exists — the first element of the
comparator-sorted filtered set for "next", the last for "prev" — and the call
returns true.  If that target's start equals both the (reset) `lastPosition`
position and the current cursor start, the call reports success without
changing selection or session state; otherwise it selects the target and
records it in `lastPosition`. -/
theorem gotoMarkerInFile_wraparound (ed : Editor) (docDiags : List Diagnostic)
    (args : Option Args) (dir : Direction) (lastPosition : Option LastPos)
    (hfold : navFold (resetLastPos lastPosition ed) ⟨ed.selection, none⟩ dir
        (filterDiagnostics docDiags args) = none)
    (hne : filterDiagnostics docDiags args ≠ []) :
    wrapTarget dir (sortDiagnostics (filterDiagnostics docDiags args)) ≠ none ∧
    ∀ n, wrapTarget dir (sortDiagnostics (filterDiagnostics docDiags args)) = some n →
      gotoMarkerInFile (some ed) docDiags args dir true lastPosition =
        if atLastPosition (resetLastPos lastPosition ed) ed.selection n then
          ⟨true, resetLastPos lastPosition ed, some ed.selection⟩
        else ⟨true, some ⟨ed.uri, n.range.start⟩, some ⟨n.range.start, n.range.start⟩⟩ := by
  refine ⟨wrapTarget_isSome dir hne, ?_⟩
  intro n hwrap
  have hempty : (filterDiagnostics docDiags args).isEmpty = false := by
    cases hq : (filterDiagnostics docDiags args).isEmpty
    · rfl
    · exact absurd (List.isEmpty_iff.mp hq) hne
  simp only [gotoMarkerInFile]
  rw [if_neg (by rw [hempty]; exact Bool.false_ne_true), hfold, hwrap]
  rfl

/-- Witness for C5: one Error marker at (0,0), cursor at (5,0), direction
"next": the fold finds nothing, wraparound selects the sorted head and moves
there. -/
theorem gotoMarkerInFile_wraparound_witness :
    navFold (resetLastPos none ⟨"A", ⟨⟨5, 0⟩, ⟨5, 0⟩⟩⟩)
        ⟨(⟨"A", ⟨⟨5, 0⟩, ⟨5, 0⟩⟩⟩ : Editor).selection, none⟩ .next
        (filterDiagnostics [⟨⟨⟨⟨0, 0⟩, ⟨0, 0⟩⟩, none⟩, .error, none⟩] none) = none ∧
    filterDiagnostics [⟨⟨⟨⟨0, 0⟩, ⟨0, 0⟩⟩, none⟩, .error, none⟩] none ≠ [] ∧
    gotoMarkerInFile (some ⟨"A", ⟨⟨5, 0⟩, ⟨5, 0⟩⟩⟩)
        [⟨⟨⟨⟨0, 0⟩, ⟨0, 0⟩⟩, none⟩, .error, none⟩] none .next true none =
      ⟨true, some ⟨"A", ⟨0, 0⟩⟩, some ⟨⟨0, 0⟩, ⟨0, 0⟩⟩⟩ := by
  refine ⟨by decide, by decide, ?_⟩
  have h := (gotoMarkerInFile_wraparound ⟨"A", ⟨⟨5, 0⟩, ⟨5, 0⟩⟩⟩
      [⟨⟨⟨⟨0, 0⟩, ⟨0, 0⟩⟩, none⟩, .error, none⟩] none .next none
      (by decide) (by decide)).2
      ⟨⟨⟨⟨0, 0⟩, ⟨0, 0⟩⟩, none⟩, .error, none⟩ (by decide)
  rw [h]
  decide

/-- Inversion: the empty token list matches only the empty string (helper). -/
theorem globMatches_nil_iff {s : List Char} : GlobMatches [] s ↔ s = [] := by
  constructor
  · intro h
    cases h
    rfl
  · rintro rfl
    exact .nil

/-- Inversion: a literal token consumes exactly its character (helper). -/
theorem globMatches_lit_iff {c : Char} {ts : List GlobTok} {s : List Char} :
    GlobMatches (.lit c :: ts) s ↔ ∃ s1, s = c :: s1 ∧ GlobMatches ts s1 := by
  constructor
  · intro h
    cases h with
    | lit c h1 => exact ⟨_, rfl, h1⟩
  · rintro ⟨s1, rfl, h⟩
    exact .lit c h

/-- Appending a run of dot-matched characters preserves a star match
(helper). -/
theorem globMatches_star_of {ts : List GlobTok} :
    ∀ (u v : List Char), (∀ x ∈ u, isDotChar x = true) → GlobMatches ts v →
      GlobMatches (.star :: ts) (u ++ v) := by
  intro u
  induction u with
  | nil => exact fun v _ h => .starSkip h
  | cons x u2 ih =>
    intro v hdot h
    exact .starCons (hdot x (List.mem_cons_self x u2))
      (ih v (fun y hy => hdot y (List.mem_cons_of_mem x hy)) h)

/-- Inversion: a star token consumes a run of dot-matched characters
(helper). -/
theorem globMatches_star_iff {ts : List GlobTok} :
    ∀ {s : List Char}, GlobMatches (.star :: ts) s ↔
      ∃ u v, s = u ++ v ∧ (∀ x ∈ u, isDotChar x = true) ∧ GlobMatches ts v := by
  have hfwd : ∀ s, GlobMatches (.star :: ts) s →
      ∃ u v, s = u ++ v ∧ (∀ x ∈ u, isDotChar x = true) ∧ GlobMatches ts v := by
    intro s
    induction s with
    | nil =>
      intro h
      cases h with
      | starSkip h1 => exact ⟨[], [], rfl, by simp, h1⟩
    | cons x xs ih =>
      intro h
      cases h with
      | starSkip h1 => exact ⟨[], x :: xs, rfl, by simp, h1⟩
      | starCons hc h1 =>
        obtain ⟨u, v, huv, hdot, hgm⟩ := ih h1
        refine ⟨x :: u, v, by rw [List.cons_append, ← huv], ?_, hgm⟩
        intro y hy
        rcases List.mem_cons.mp hy with rfl | hy2
        · exact hc
        · exact hdot y hy2
  intro s
  constructor
  · exact hfwd s
  · rintro ⟨u, v, rfl, hdot, hgm⟩
    exact globMatches_star_of u v hdot hgm

/-- Membership in `dotSuffixes`: exactly the suffixes whose removed prefix is
all dot-matched (helper). -/
theorem mem_dotSuffixes_iff :
    ∀ {s s2 : List Char}, s2 ∈ dotSuffixes s ↔
      ∃ u, s = u ++ s2 ∧ ∀ x ∈ u, isDotChar x = true := by
  intro s
  induction s with
  | nil =>
    intro s2
    simp only [dotSuffixes, List.mem_singleton]
    constructor
    · rintro rfl
      exact ⟨[], rfl, by simp⟩
    · rintro ⟨u, hu, _⟩
      have := List.append_eq_nil.mp hu.symm
      exact this.2.symm ▸ rfl
  | cons x xs ih =>
    intro s2
    simp only [dotSuffixes]
    by_cases hd : isDotChar x = true
    · rw [if_pos hd]
      simp only [List.mem_cons]
      rw [ih]
      constructor
      · rintro (rfl | ⟨u, rfl, hdot⟩)
        · exact ⟨[], rfl, by simp⟩
        · refine ⟨x :: u, rfl, ?_⟩
          intro y hy
          rcases List.mem_cons.mp hy with rfl | hy2
          · exact hd
          · exact hdot y hy2
      · rintro ⟨u, hu, hdot⟩
        cases u with
        | nil => exact Or.inl (by simpa using hu.symm)
        | cons y u2 =>
          injection hu with h1 h2
          exact Or.inr ⟨u2, h2, fun z hz => hdot z (List.mem_cons_of_mem y hz)⟩
    · rw [if_neg hd]
      simp only [List.mem_cons, List.not_mem_nil, or_false]
      constructor
      · rintro rfl
        exact ⟨[], rfl, by simp⟩
      · rintro ⟨u, hu, hdot⟩
        cases u with
        | nil => simpa using hu.symm
        | cons y u2 =>
          injection hu with h1 h2
          exact absurd (h1 ▸ hdot y (List.mem_cons_self y u2)) hd

/-- The exact matcher agrees with the declarative whole-string semantics
(helper). -/
theorem globExact_iff (ts : List GlobTok) :
    ∀ s : List Char, globExact ts s = true ↔ GlobMatches ts s := by
  induction ts with
  | nil =>
    intro s
    simp only [globExact, List.isEmpty_iff]
    rw [globMatches_nil_iff]
  | cons t ts ih =>
    cases t with
    | lit c =>
      intro s
      cases s with
      | nil =>
        simp only [globExact]
        rw [globMatches_lit_iff]
        apply iff_of_false Bool.false_ne_true
        rintro ⟨s1, hs, _⟩
        exact List.noConfusion hs
      | cons x xs =>
        simp only [globExact, Bool.and_eq_true, beq_iff_eq]
        rw [ih xs, globMatches_lit_iff]
        constructor
        · rintro ⟨rfl, h⟩
          exact ⟨xs, rfl, h⟩
        · rintro ⟨s1, heq, h⟩
          injection heq with h1 h2
          exact ⟨h1.symm, h2 ▸ h⟩
    | star =>
      intro s
      simp only [globExact, List.any_eq_true]
      rw [globMatches_star_iff]
      constructor
      · rintro ⟨s2, hmem, hex⟩
        obtain ⟨u, rfl, hdot⟩ := mem_dotSuffixes_iff.mp hmem
        exact ⟨u, s2, rfl, hdot, (ih s2).mp hex⟩
      · rintro ⟨u, v, rfl, hdot, hgm⟩
        exact ⟨v, mem_dotSuffixes_iff.mpr ⟨u, rfl, hdot⟩, (ih v).mpr hgm⟩

/-- The start-anchored matcher matches exactly the prefixes (helper). -/
theorem matchPre_iff (ts : List GlobTok) :
    ∀ s : List Char, matchPre ts s = true ↔
      ∃ u v, s = u ++ v ∧ GlobMatches ts u := by
  induction ts with
  | nil =>
    intro s
    simp only [matchPre]
    exact iff_of_true trivial ⟨[], s, rfl, .nil⟩
  | cons t ts ih =>
    cases t with
    | lit c =>
      intro s
      cases s with
      | nil =>
        simp only [matchPre]
        apply iff_of_false Bool.false_ne_true
        rintro ⟨u, v, huv, hgm⟩
        obtain ⟨s1, hs1, _⟩ := globMatches_lit_iff.mp hgm
        rw [hs1] at huv
        exact List.noConfusion huv
      | cons x xs =>
        simp only [matchPre, Bool.and_eq_true, beq_iff_eq]
        rw [ih xs]
        constructor
        · rintro ⟨rfl, u, v, rfl, hgm⟩
          exact ⟨c :: u, v, rfl, .lit c hgm⟩
        · rintro ⟨u, v, huv, hgm⟩
          obtain ⟨s1, rfl, hgm1⟩ := globMatches_lit_iff.mp hgm
          rw [List.cons_append] at huv
          injection huv with h1 h2
          exact ⟨h1.symm, s1, v, h2, hgm1⟩
    | star =>
      intro s
      simp only [matchPre, List.any_eq_true]
      constructor
      · rintro ⟨s2, hmem, hpre⟩
        obtain ⟨w, rfl, hdot⟩ := mem_dotSuffixes_iff.mp hmem
        obtain ⟨u1, v, rfl, hgm⟩ := (ih s2).mp hpre
        exact ⟨w ++ u1, v, by rw [List.append_assoc], globMatches_star_iff.mpr
          ⟨w, u1, rfl, hdot, hgm⟩⟩
      · rintro ⟨u, v, rfl, hgm⟩
        obtain ⟨w, u1, rfl, hdot, hgm1⟩ := globMatches_star_iff.mp hgm
        refine ⟨u1 ++ v, mem_dotSuffixes_iff.mpr ⟨w, by rw [List.append_assoc], hdot⟩, ?_⟩
        exact (ih (u1 ++ v)).mpr ⟨u1, v, rfl, hgm1⟩

/-- The end-anchored matcher matches exactly the suffixes (helper). -/
theorem matchSuf_iff (ts : List GlobTok) :
    ∀ s : List Char, matchSuf ts s = true ↔
      ∃ u v, s = u ++ v ∧ GlobMatches ts v := by
  intro s
  induction s with
  | nil =>
    simp only [matchSuf]
    rw [globExact_iff]
    constructor
    · intro h
      exact ⟨[], [], rfl, h⟩
    · rintro ⟨u, v, huv, hgm⟩
      have hnil := List.append_eq_nil.mp huv.symm
      exact hnil.2 ▸ hgm
  | cons x xs ih =>
    simp only [matchSuf, Bool.or_eq_true]
    rw [globExact_iff, ih]
    constructor
    · rintro (h | ⟨u, v, rfl, h⟩)
      · exact ⟨[], x :: xs, rfl, h⟩
      · exact ⟨x :: u, v, rfl, h⟩
    · rintro ⟨u, v, huv, h⟩
      cases u with
      | nil =>
        left
        have hv : v = x :: xs := by simpa using huv.symm
        exact hv ▸ h
      | cons y u2 =>
        right
        injection huv with h1 h2
        exact ⟨u2, v, h2, h⟩

/-- The unanchored matcher matches exactly the substrings (helper). -/
theorem matchMid_iff (ts : List GlobTok) :
    ∀ s : List Char, matchMid ts s = true ↔
      ∃ u v w, s = u ++ v ++ w ∧ GlobMatches ts v := by
  intro s
  induction s with
  | nil =>
    simp only [matchMid]
    rw [matchPre_iff ts []]
    constructor
    · rintro ⟨u, v, huv, hgm⟩
      exact ⟨[], u, v, huv, hgm⟩
    · rintro ⟨u, v, w, huvw, hgm⟩
      have h1 := List.append_eq_nil.mp huvw.symm
      have h2 := List.append_eq_nil.mp h1.1
      refine ⟨v, w, ?_, hgm⟩
      rw [h2.1] at huvw
      simpa using huvw
  | cons x xs ih =>
    simp only [matchMid, Bool.or_eq_true]
    rw [matchPre_iff ts (x :: xs), ih]
    constructor
    · rintro (⟨v, w, hvw, hgm⟩ | ⟨u, v, w, huvw, hgm⟩)
      · exact ⟨[], v, w, by simpa using hvw, hgm⟩
      · exact ⟨x :: u, v, w, by simp [huvw], hgm⟩
    · rintro ⟨u, v, w, huvw, hgm⟩
      cases u with
      | nil =>
        left
        exact ⟨v, w, by simpa using huvw, hgm⟩
      | cons y u2 =>
        right
        rw [List.cons_append, List.cons_append] at huvw
        injection huvw with h1 h2
        exact ⟨u2, v, w, h2, hgm⟩

/-- The matcher for the trailing alternatives agrees with its declarative
semantics (helper). -/
theorem midSuf_iff :
    ∀ (alts : List (List GlobTok)) (s : List Char), midSuf alts s = true ↔ AltSem alts s := by
  intro alts
  induction alts with
  | nil =>
    intro s
    simp only [midSuf, AltSem]
    exact iff_of_false Bool.false_ne_true (fun h => h)
  | cons a rest ih =>
    cases rest with
    | nil =>
      intro s
      simp only [midSuf, AltSem]
      exact matchSuf_iff a s
    | cons b rest2 =>
      intro s
      simp only [midSuf, AltSem, Bool.or_eq_true]
      rw [matchMid_iff a s, ih s]

/-- C6 amended: `globToRe` matching, characterized declaratively.  The
pattern is split on `|` (which survives escaping and acts as regex
alternation); `*` becomes `.*` (zero or more non-line-terminator characters)
and every other character is literal.  A single-alternative pattern is
matched against the whole candidate (anchored both ends); with several
alternatives, the start anchor attaches only to the first alternative (which
therefore matches any prefix), the end anchor only to the last (any suffix),
and middle alternatives are unanchored (any substring). -/
theorem globToReMatch_iff_sem : ∀ p s, globToReMatch p s = true ↔ GlobReSem p s := by
  intro p s
  simp only [globToReMatch, GlobReSem]
  cases htoks : altToks p with
  | nil => exact iff_of_false Bool.false_ne_true (fun h => h)
  | cons alt alts =>
    cases alts with
    | nil => exact globExact_iff alt s.data
    | cons b rest =>
      simp only [Bool.or_eq_true]
      rw [matchPre_iff alt s.data, midSuf_iff (b :: rest) s.data]
